import Mathlib

/-!
Verification of the TypeScript-erasure transform in
`crates/oxc_transformer/src/typescript/mod.rs`.

The Rust source is shallowly embedded below: each Lean definition mirrors one
Rust item of the same name.  AST node types keep only the fields the transform
reads or builds; wrapper layers that carry no information for this transform
(spans, scopes, `AssignmentTarget`/`SimpleAssignmentTarget` wrappers, the
`optional` flags that are always `false` at the construction sites in this
file) are flattened away.  The scope/symbol table, which the transform only
queries, is embedded as a lookup function from root-scope names to symbols.
-/

set_option maxHeartbeats 1000000

namespace Oxc

/-- `ImportOrExportKind` from `oxc_ast`: the `type` / value marker carried
by import and export declarations and specifiers. -/
inductive ImportOrExportKind where
  | value
  | type
deriving DecidableEq

/-- `ImportOrExportKind::is_value`. -/
def ImportOrExportKind.is_value : ImportOrExportKind → Bool
  | .value => true
  | .type => false

/-- `ImportOrExportKind::is_type`. -/
def ImportOrExportKind.is_type : ImportOrExportKind → Bool
  | .value => false
  | .type => true

/-- A resolved reference to a symbol, as recorded in the semantic collaborator's
symbol table; the transform only reads its type/value tag (`Reference::is_type`). -/
structure Reference where
  is_type : Bool
deriving DecidableEq

/-- One symbol of the root scope: the `SymbolFlags` bits the transform queries,
plus the symbol's resolved references. -/
structure Symbol where
  import_binding : Bool
  function_scoped_variable : Bool
  block_scoped_variable : Bool
  resolved_references : List Reference
deriving DecidableEq

/-- The read-only scope/symbol table (`TransformerCtx`'s `scopes()` and
`symbols()`), collapsed to the one query chain the transform uses:
`scopes().get_binding(root_scope_id, name)` followed by symbol queries. -/
structure SymbolTable where
  binding : String → Option Symbol

/-- `TSEnumMemberName`: the key of one enum member.  The computed-property and
number-literal forms carry payloads in the source, but the transform declares
them unreachable without inspecting them, so they are embedded as empty. -/
inductive TSEnumMemberName where
  | ident (name : String)
  | strLit (value : String)
  | computedPropertyName
  | numberLit
deriving DecidableEq

/-- `TSModuleDeclarationName`: a namespace/module declaration's name. -/
inductive TSModuleDeclName where
  | ident (name : String)
  | strName (value : String)
deriving DecidableEq

/-- `TSTypeName`: a possibly qualified type name, `A` or `A.B.C`. -/
inductive TSTypeName where
  | identifierReference (name : String)
  | qualifiedName (left : TSTypeName) (right : String)
deriving DecidableEq

/-- `TSModuleReference`: the right-hand side of an import-equals declaration. -/
inductive TSModuleReference where
  | typeName (name : TSTypeName)
  | externalModuleReference (expression : String)
deriving DecidableEq

/-- `ImportDeclarationSpecifier`: one specifier of an import declaration.
Only the fields the transform reads are kept (`local.name`, and for named
specifiers the specifier's own `import_kind`). -/
inductive ImportSpecifier where
  | namedSpec (import_kind : ImportOrExportKind) (localName : String)
  | defaultSpec (localName : String)
  | namespaceSpec (localName : String)
deriving DecidableEq

/-- The local name of an import specifier (`specifier.local.name`). -/
def ImportSpecifier.localName : ImportSpecifier → String
  | .namedSpec _ n => n
  | .defaultSpec n => n
  | .namespaceSpec n => n

/-- `ExportSpecifier`: one specifier of an export-named declaration; the
transform reads its own `export_kind` and `exported.name()`. -/
structure ExportSpecifierS where
  export_kind : ImportOrExportKind
  localName : String
  exported : String
deriving DecidableEq

/-- `VariableDeclarationKind`. -/
inductive VariableDeclarationKind where
  | var
  | letDecl
  | const
deriving DecidableEq

mutual

/-- `Expression`, restricted to the forms this transform reads or builds. -/
inductive Expr where
  | numberLit (value : Nat) (raw : String)
  | stringLit (value : String)
  | identRef (name : String)
  | computedMember (obj : Expr) (prop : Expr)
  | staticMember (obj : Expr) (prop : String)
  | assignExpr (target : Expr) (value : Expr)
  | binaryAdd (left : Expr) (right : Expr)
  | logicalOr (left : Expr) (right : Expr)
  | callExpr (callee : Expr) (args : List Expr)
  | objectExpr
  | arrowFn (param : String) (body : List Stmt)
  | otherExpr

/-- `Statement`, restricted to the forms this transform reads or builds. -/
inductive Stmt where
  | declStmt (d : Declaration)
  | exprStmt (e : Expr)
  | returnStmt (argument : Option Expr)
  | moduleDecl (m : ModuleDecl)
  | other

/-- `Declaration`.  Each declarator of a variable declaration is flattened to
its binding name paired with its optional initializing expression; the
`declare` flag stands for `modifiers().is_some_and(|m| m.contains(Declare))`.
An enum member is its `TSEnumMemberName` paired with its optional initializing
expression. -/
inductive Declaration where
  | variableDecl (kind : VariableDeclarationKind)
      (declarators : List (String × Option Expr)) (declare : Bool)
  | tsEnum (name : String) (declare : Bool)
      (members : List (TSEnumMemberName × Option Expr))
  | tsModule (id : TSModuleDeclName) (declare : Bool)
  | tsInterface (declare : Bool)
  | tsTypeAlias (declare : Bool)
  | tsImportEquals (id : String) (import_kind : ImportOrExportKind)
      (module_reference : TSModuleReference)
  | otherDecl (declare : Bool)

/-- `ModuleDeclaration`, with the fields the elision pass reads. -/
inductive ModuleDecl where
  | importDecl (import_kind : ImportOrExportKind)
      (specifiers : Option (List ImportSpecifier)) (source : String)
  | exportNamed (declaration : Option Declaration)
      (specifiers : List ExportSpecifierS) (source : Option String)
      (export_kind : ImportOrExportKind)
  | exportDefault (exported : String)
  | exportAll (exported : Option String) (export_kind : ImportOrExportKind)
      (source : String)
  | otherModule

end

/-- `Statement::ModuleDeclaration(..)` discriminator. -/
def isModuleDecl : Stmt → Bool
  | .moduleDecl _ => true
  | _ => false

/-- `Declaration::modifiers().is_some_and(|m| m.contains(ModifierKind::Declare))`. -/
def Declaration.modifiersDeclare : Declaration → Bool
  | .variableDecl _ _ d => d
  | .tsEnum _ d _ => d
  | .tsModule _ d => d
  | .tsInterface d => d
  | .tsTypeAlias d => d
  | .tsImportEquals _ _ _ => false
  | .otherDecl d => d

/-- `matches!(d, Declaration::TSInterfaceDeclaration(_) | Declaration::TSTypeAliasDeclaration(_))`. -/
def Declaration.isInterfaceOrAlias : Declaration → Bool
  | .tsInterface _ => true
  | .tsTypeAlias _ => true
  | _ => false

/-- Modelled from the spec: `is_valid_identifier` lives in `crates/oxc_transformer/src/utils.rs`,
which is not part of the sources under study; the spec only calls it "a
syntactically valid identifier".  Embedded as the ASCII identifier test (first
character a letter, `_` or `$`; remaining characters letters, digits, `_` or
`$`).  Every claim below is conditional on this function's verdict, never on
its internals.  The second argument mirrors the source's `reserved` parameter
(the call site passes `true`). -/
def is_valid_identifier (name : String) (_reserved : Bool) : Bool :=
  match name.data with
  | [] => false
  | c :: cs =>
    (c.isAlpha || c = '_' || c = '$') &&
      cs.all fun ch => ch.isAlphanum || ch = '_' || ch = '$'

/-- Modelled from the spec: `Expression::is_string_literal` comes from
`oxc_ast`, which is not part of the sources under study; the spec says the
transform records "whether this value expression is a plain string literal". -/
def Expr.is_string_literal : Expr → Bool
  | .stringLit _ => true
  | _ => false

/-! ### Scope/symbol queries (`is_import_binding_only`, `has_value_references`) -/

/-- `TypeScript::is_import_binding_only`: the root-scope binding for `name`
exists, carries `SymbolFlags::ImportBinding`, and has neither
`FunctionScopedVariable` nor `BlockScopedVariable`. -/
def is_import_binding_only (tbl : SymbolTable) (name : String) : Bool :=
  match tbl.binding name with
  | some sym =>
    sym.import_binding &&
      !(sym.function_scoped_variable || sym.block_scoped_variable)
  | none => false

/-- `TypeScript::has_value_references`: some resolved reference of the
root-scope binding for `name` is not a type-tagged reference. -/
def has_value_references (tbl : SymbolTable) (name : String) : Bool :=
  match tbl.binding name with
  | some sym => sym.resolved_references.any fun r => !r.is_type
  | none => false

/-! ### Enum lowering (`transform_ts_enum_members`, `transform_ts_enum`) -/

/-- Resolution of an enum member's display name from its key, as in the
`match &member.id` at the top of the member loop; the computed-property and
number-literal forms hit the source's `unreachable!()`, embedded as `none`. -/
def enumMemberName : TSEnumMemberName → Option String
  | .ident name => some name
  | .strLit value => some value
  | .computedPropertyName => none
  | .numberLit => none

/-- One iteration of the member loop of `transform_ts_enum_members`: takes the
running `default_init` expression and one member, returns the statements this
iteration pushes and the updated `default_init` (`none` embeds the source's
`unreachable!()` abort on a computed-property or number-literal member name). -/
def enumMemberStep (enum_name : String) (default_init : Expr)
    (member : TSEnumMemberName × Option Expr) : Option (List Stmt × Expr) :=
  match enumMemberName member.1 with
  | none => none
  | some member_name =>
    let init := member.2.getD default_init
    let is_str := init.is_string_literal
    let self_ref :=
      Expr.computedMember (.identRef enum_name) (.stringLit member_name)
    let (pre, init, self_ref) :=
      if is_valid_identifier member_name true then
        ([Stmt.declStmt
            (.variableDecl .const [(member_name, some init)] false)],
         Expr.identRef member_name,
         Expr.identRef member_name)
      else
        ([], init, self_ref)
    -- Foo["x"] = init
    let member_expr :=
      Expr.computedMember (.identRef enum_name) (.stringLit member_name)
    let expr := Expr.assignExpr member_expr init
    -- Foo[Foo["x"] = init] = "x"
    let expr :=
      if is_str then expr
      else
        Expr.assignExpr
          (Expr.computedMember (.identRef enum_name) expr)
          (.stringLit member_name)
    -- 1 + Foo["x"]
    some (pre ++ [Stmt.exprStmt expr],
      Expr.binaryAdd (.numberLit 1 "1") self_ref)

/-- The member loop of `transform_ts_enum_members`, threading `default_init`
left to right and accumulating the pushed statements. -/
def enumMembersLoop (enum_name : String) :
    List (TSEnumMemberName × Option Expr) → Expr → Option (List Stmt)
  | [], _ => some []
  | m :: rest, default_init =>
    match enumMemberStep enum_name default_init m with
    | none => none
    | some (stmts, default_init) =>
      (enumMembersLoop enum_name rest default_init).map (stmts ++ ·)

/-- `TypeScript::transform_ts_enum_members`: lowers the member list, starting
the running default initializer at the number literal `0` and appending the
final `return Foo;` statement. -/
def transform_ts_enum_members (members : List (TSEnumMemberName × Option Expr))
    (enum_name : String) : Option (List Stmt) :=
  (enumMembersLoop enum_name members (Expr.numberLit 0 "0")).map
    (· ++ [Stmt.returnStmt (some (.identRef enum_name))])

/-- `TypeScript::transform_ts_enum`.  The result is layered: the outer `Option`
is `none` when member lowering aborted on an unreachable member-name form; the
inner `Option` is the source's return value, `none` meaning "no replacement"
(a `declare`d, ambient enum) and `some` the `var Foo = ((Foo) => { .. })(Foo || {})`
replacement declaration. -/
def transform_ts_enum (name : String) (declare : Bool)
    (members : List (TSEnumMemberName × Option Expr)) :
    Option (Option Declaration) :=
  if declare then some none
  else
    match transform_ts_enum_members members name with
    | none => none
    | some statements =>
      let callee := Expr.arrowFn name statements
      let argument := Expr.logicalOr (.identRef name) .objectExpr
      let call_expression := Expr.callExpr callee [argument]
      some (some (.variableDecl .var [(name, some call_expression)] false))

/-! ### Import-equals lowering -/

/-- `TypeScript::transform_ts_type_name`: a qualified type name becomes a chain
of static member expressions. -/
def transform_ts_type_name : TSTypeName → Expr
  | .identifierReference name => .identRef name
  | .qualifiedName left right => .staticMember (transform_ts_type_name left) right

/-- `TypeScript::transform_ts_import_equals`: a value import-equals declaration
becomes `var id = <reference>` where an external module reference lowers to a
`require("...")` call. -/
def transform_ts_import_equals (id : String) (module_reference : TSModuleReference) :
    Declaration :=
  let init :=
    match module_reference with
    | .typeName type_name => transform_ts_type_name type_name
    | .externalModuleReference expression =>
      Expr.callExpr (.identRef "require") [.stringLit expression]
  .variableDecl .var [(id, some init)] false

/-- `TypeScript::transform_declaration`.  `none` embeds the abort inside enum
lowering; otherwise the result is the (possibly replaced) declaration — the
source mutates `*decl` only when `transform_ts_enum` returns a replacement. -/
def transform_declaration (decl : Declaration) : Option Declaration :=
  match decl with
  | .tsImportEquals id import_kind module_reference =>
    if import_kind.is_value then
      some (transform_ts_import_equals id module_reference)
    else some decl
  | .tsEnum name declare members =>
    match transform_ts_enum name declare members with
    | none => none
    | some none => some decl
    | some (some d) => some d
  | _ => some decl

/-- Modelled from the spec: the traversal driver that owns the program tree is
not part of the sources under study; per §4.2/§7 of the spec, an ambient enum's
"no replacement" answer makes the driver drop the whole declaration statement,
while a produced replacement takes the declaration's place. -/
def lowered_enum_statements (name : String) (declare : Bool)
    (members : List (TSEnumMemberName × Option Expr)) : List Stmt :=
  match transform_ts_enum name declare members with
  | some (some d) => [Stmt.declStmt d]
  | some none => []
  | none => []

/-! ### Merged-export deduplication (`transform_statement`) -/

/-- The merge key resolved by `transform_statement`'s `match &declaration`:
an enum declaration's name, or a namespace/module declaration's name when that
name is an identifier; every other declaration makes the function return. -/
def declName : Declaration → Option String
  | .tsEnum name _ _ => some name
  | .tsModule (.ident name) _ => some name
  | _ => none

/-- `TypeScript::transform_statement`, with the transform's `export_name_set`
made an explicit argument and result.  Only an export-named statement carrying
an inner declaration, no source and a value export kind is considered; a
second statement exporting an already seen name is replaced by its inner
declaration. -/
def transform_statement (export_name_set : Finset String) (stmt : Stmt) :
    Finset String × Stmt :=
  match stmt with
  | .moduleDecl (.exportNamed (some declaration) _ none .value) =>
    match declName declaration with
    | none => (export_name_set, stmt)
    | some id =>
      if id ∈ export_name_set then
        (export_name_set, .declStmt declaration)
      else
        (insert id export_name_set, stmt)
  | _ => (export_name_set, stmt)

/-- The driver's statement traversal: `transform_statement` applied to each
top-level statement in order, threading `export_name_set`. -/
def transform_statements (export_name_set : Finset String) :
    List Stmt → Finset String × List Stmt
  | [] => (export_name_set, [])
  | stmt :: rest =>
    let r := transform_statement export_name_set stmt
    let r2 := transform_statements r.1 rest
    (r2.1, r.2 :: r2.2)

/-! ### Type-only import/export elision (`transform_program`) -/

/-- The two name sets produced by pass 1 of `transform_program`
(`export_type_names` and `export_names` in the source). -/
structure ExportNameSets where
  export_type_names : Finset String
  export_names : Finset String

/-- The body of the pass-1 `specifiers.iter().for_each(..)` closure of
`transform_program` for one export specifier. -/
def classifySpecifier (tbl : SymbolTable) (export_kind : ImportOrExportKind)
    (a : ExportNameSets) (specifier : ExportSpecifierS) : ExportNameSets :=
  if is_import_binding_only tbl specifier.exported then
    if export_kind.is_value && specifier.export_kind.is_value then
      { a with export_names := insert specifier.exported a.export_names }
    else
      { a with
        export_type_names := insert specifier.exported a.export_type_names }
  else a

/-- One statement of the pass-1 `for_each` of `transform_program`: classify the
export names of a module declaration into the two sets. -/
def classifyExportStep (tbl : SymbolTable) (acc : ExportNameSets) :
    Stmt → ExportNameSets
  | .moduleDecl (.exportNamed _ specifiers _ export_kind) =>
    specifiers.foldl (classifySpecifier tbl export_kind) acc
  | .moduleDecl (.exportDefault exported) =>
    if is_import_binding_only tbl exported then
      { acc with export_names := insert exported acc.export_names }
    else acc
  | .moduleDecl (.exportAll (some exported) export_kind _) =>
    if is_import_binding_only tbl exported then
      -- the source literally tests `decl.export_kind.is_value() && decl.export_kind.is_value()`
      if export_kind.is_value && export_kind.is_value then
        { acc with export_names := insert exported acc.export_names }
      else
        { acc with export_type_names := insert exported acc.export_type_names }
    else acc
  | _ => acc

/-- Pass 1 of `transform_program`: collect the export name sets over the whole
program body. -/
def collectExportNames (tbl : SymbolTable) (body : List Stmt) : ExportNameSets :=
  body.foldl (classifyExportStep tbl) ⟨∅, ∅⟩

/-- The `specifiers.retain(..)` closure for one import specifier in pass 2:
returns whether the specifier is kept, and the updated `import_type_names`
set.  `is_type` is the enclosing declaration's `import_kind.is_type()`. -/
def importSpecifierRetain (verbatim : Bool) (tbl : SymbolTable)
    (sets : ExportNameSets) (is_type : Bool) (import_type_names : Finset String) :
    ImportSpecifier → Bool × Finset String
  | .namedSpec import_kind localName =>
    if is_type || import_kind.is_type then
      (false, insert localName import_type_names)
    else if localName ∈ sets.export_type_names then
      (false, import_type_names)
    else if verbatim then
      (true, import_type_names)
    else
      (has_value_references tbl localName ||
        decide (localName ∈ sets.export_names), import_type_names)
  | .defaultSpec localName =>
    -- the `ImportDefaultSpecifier(s) if !self.verbatim` arm;
    -- with verbatim syntax enabled the specifier falls to the `_ => true` arm
    if verbatim then (true, import_type_names)
    else
      let import_type_names :=
        if is_type then insert localName import_type_names else import_type_names
      (has_value_references tbl localName ||
        decide (localName ∈ sets.export_names), import_type_names)
  | .namespaceSpec localName =>
    if verbatim then (true, import_type_names)
    else
      let import_type_names :=
        if is_type then insert localName import_type_names else import_type_names
      (has_value_references tbl localName ||
        decide (localName ∈ sets.export_names), import_type_names)

/-- `specifiers.retain(..)` over a whole import specifier list, threading
`import_type_names` left to right as the source's mutable capture does. -/
def retainImportSpecifiers (verbatim : Bool) (tbl : SymbolTable)
    (sets : ExportNameSets) (is_type : Bool) :
    List ImportSpecifier → Finset String → List ImportSpecifier × Finset String
  | [], import_type_names => ([], import_type_names)
  | s :: rest, import_type_names =>
    let r := importSpecifierRetain verbatim tbl sets is_type
      import_type_names s
    let r2 := retainImportSpecifiers verbatim tbl sets is_type
      rest r.2
    (if r.1 then s :: r2.1 else r2.1, r2.2)

/-- The pass-2 body for one module declaration: the rewritten declaration, the
updated `import_type_names` set, and whether the statement's index is pushed
onto `delete_indexes`. -/
def pass2Module (verbatim : Bool) (tbl : SymbolTable)
    (sets : ExportNameSets) (import_type_names : Finset String) :
    ModuleDecl → ModuleDecl × Finset String × Bool
  | .exportNamed declaration specifiers source export_kind =>
    let specifiers := specifiers.filter fun specifier =>
      !(specifier.export_kind.is_type ||
        decide (specifier.exported ∈ import_type_names))
    let del := export_kind.is_type || verbatim ||
      ((declaration.isNone ||
          (match declaration with
           | some d => d.modifiersDeclare || d.isInterfaceOrAlias
           | none => false)) &&
        specifiers.isEmpty)
    (.exportNamed declaration specifiers source export_kind,
      import_type_names, del)
  | .importDecl import_kind specifiers source =>
    let is_type := import_kind.is_type
    -- `is_specifiers_empty`: the list existed and was empty before filtering
    let is_specifiers_empty :=
      match specifiers with
      | some s => s.isEmpty
      | none => false
    match specifiers with
    | none =>
      -- no specifier list at all: nothing to retain, and
      -- `specifiers.is_some_and(|s| s.is_empty())` is false afterwards
      (.importDecl import_kind none source, import_type_names,
        import_kind.is_type)
    | some list =>
      let r := retainImportSpecifiers verbatim tbl sets is_type
        list import_type_names
      (.importDecl import_kind (some r.1) source, r.2,
        import_kind.is_type || (!is_specifiers_empty && r.1.isEmpty))
  | m => (m, import_type_names, false)

/-- Pass 2 of `transform_program`: the `for (index, stmt)` loop.  Returns the
rewritten statement list, the collected `delete_indexes` (in increasing
order, as pushed), and `import_len`, the count of module declarations
visited.  `idx` is the index of the first statement of `body` in the whole
program. -/
def pass2Aux (verbatim : Bool) (tbl : SymbolTable)
    (sets : ExportNameSets) :
    List Stmt → Nat → Finset String → List Stmt × List Nat × Nat
  | [], _, _ => ([], [], 0)
  | .moduleDecl m :: rest, idx, import_type_names =>
    let r := pass2Module verbatim tbl sets import_type_names m
    let r2 := pass2Aux verbatim tbl sets rest (idx + 1) r.2.1
    (.moduleDecl r.1 :: r2.1,
      (if r.2.2 then idx :: r2.2.1 else r2.2.1), r2.2.2 + 1)
  | stmt :: rest, idx, import_type_names =>
    let r2 := pass2Aux verbatim tbl sets rest (idx + 1)
      import_type_names
    (stmt :: r2.1, r2.2.1, r2.2.2)

/-- Both elision passes chained: pass 1's sets feed pass 2, which starts at
index `0` with an empty `import_type_names` set. -/
def elisionPass2 (verbatim : Bool) (tbl : SymbolTable)
    (body : List Stmt) : List Stmt × List Nat × Nat :=
  pass2Aux verbatim tbl (collectExportNames tbl body) body 0 ∅

/-- The cleanup loop `for index in delete_indexes.into_iter().rev() { body.remove(index) }`:
statements at the recorded indexes are removed, highest index first. -/
def removeIndexes (body : List Stmt) (delete_indexes : List Nat) : List Stmt :=
  delete_indexes.foldr (fun index b => b.eraseIdx index) body

/-- The index list with `0` removed and everything shifted down by one (used
only to reason about the cleanup loop). -/
def shiftIdx (dels : List Nat) : List Nat :=
  (dels.filter fun d => d != 0).map (· - 1)

/-- The statement produced by one pass-2 step for a given current
`import_type_names` set (used only to reason about pass 2 positionally). -/
def pass2StmtImage (verbatim : Bool) (tbl : SymbolTable)
    (sets : ExportNameSets) (import_type_names : Finset String) : Stmt → Stmt
  | .moduleDecl m =>
    .moduleDecl (pass2Module verbatim tbl sets import_type_names m).1
  | s => s

/-- The synthesized `export {}` statement: a value-kind export-named
declaration with no inner declaration, no specifiers and no source. -/
def emptyExportStmt : Stmt :=
  .moduleDecl (.exportNamed none [] none .value)

/-- `TypeScript::transform_program`: classify export names, filter and mark
imports/exports, remove the marked statements, and append `export {}` when
at least one module declaration existed and all of them were deleted. -/
def transform_program (verbatim : Bool) (tbl : SymbolTable)
    (body : List Stmt) : List Stmt :=
  let r := elisionPass2 verbatim tbl body
  let cleaned := removeIndexes r.1 r.2.1
  if 0 < r.2.2 ∧ r.2.2 = r.2.1.length then cleaned ++ [emptyExportStmt]
  else cleaned

/-! ### Spec-worded restatements, used to compare the source against the
specification's own description of the algorithms -/

/-- Pass-1 classification of one module declaration exactly as §4.4 of the
spec words it: each occurrence of an import-binding-only exported name is
paired with `true` when it is classified a value export name and `false` when
a type export name.  Export-named specifiers are value exactly when both the
declaration's and the specifier's export kinds are value; an export-default
name is always value; an export-all alias is classified by the declaration's
export kind alone. -/
def specClassify (tbl : SymbolTable) : ModuleDecl → List (String × Bool)
  | .exportNamed _ specifiers _ export_kind =>
    specifiers.filterMap fun specifier =>
      if is_import_binding_only tbl specifier.exported then
        some (specifier.exported,
          export_kind.is_value && specifier.export_kind.is_value)
      else none
  | .exportDefault exported =>
    if is_import_binding_only tbl exported then [(exported, true)] else []
  | .exportAll (some exported) export_kind _ =>
    if is_import_binding_only tbl exported then
      [(exported, export_kind.is_value)]
    else []
  | _ => []

/-- Pass-1 classification occurrences contributed by one statement. -/
def specClassifyStmt (tbl : SymbolTable) : Stmt → List (String × Bool)
  | .moduleDecl m => specClassify tbl m
  | _ => []

/-- All pass-1 classification occurrences of a program, in source order. -/
def classifications (tbl : SymbolTable) (body : List Stmt) :
    List (String × Bool) :=
  body.flatMap (specClassifyStmt tbl)

/-- The value-export-name set as the spec words it: the names of the
value-classified occurrences. -/
def specValueNames (tbl : SymbolTable) (body : List Stmt) : Finset String :=
  (((classifications tbl body).filter (·.2)).map (·.1)).toFinset

/-- The type-export-name set as the spec words it: the names of the
type-classified occurrences. -/
def specTypeNames (tbl : SymbolTable) (body : List Stmt) : Finset String :=
  (((classifications tbl body).filter (fun p => !p.2)).map (·.1)).toFinset

/-- Enum self-reference as §4.2 step 6 of the spec words it: the bare
identifier when the member name is identifier-valid, otherwise the bracketed
member access `Name["name"]`. -/
def specSelfReference (enum_name member_name : String) : Expr :=
  if is_valid_identifier member_name true then .identRef member_name
  else .computedMember (.identRef enum_name) (.stringLit member_name)

/-- Statements for one enum member as §4.2 steps 3–5 of the spec word them:
an optional `const name = value` declaration first (identifier-valid names
only, in which case the assignment's value is the identifier), then the
forward assignment for string-literal values or the nested bidirectional
assignment otherwise. -/
def specMemberStatements (enum_name member_name : String) (value : Expr) :
    List Stmt :=
  let assigned :=
    if is_valid_identifier member_name true then Expr.identRef member_name
    else value
  let forward :=
    Expr.assignExpr
      (.computedMember (.identRef enum_name) (.stringLit member_name)) assigned
  let assignment :=
    if value.is_string_literal then forward
    else
      Expr.assignExpr (.computedMember (.identRef enum_name) forward)
        (.stringLit member_name)
  (if is_valid_identifier member_name true then
    [Stmt.declStmt (.variableDecl .const [(member_name, some value)] false)]
   else []) ++ [Stmt.exprStmt assignment]

/-- Member lowering as §4.2 of the spec words it: one fold over the members in
source order carrying the running default initializer; each member's value
expression is its own initializer when present and the running default
otherwise, and the next default is `1 + <self-reference>`; the `return Name`
statement closes the body. -/
def specLowerMembers (enum_name : String) :
    List (TSEnumMemberName × Option Expr) → Expr → Option (List Stmt)
  | [], _ => some [Stmt.returnStmt (some (.identRef enum_name))]
  | m :: rest, running_default =>
    match enumMemberName m.1 with
    | none => none
    | some member_name =>
      let value := m.2.getD running_default
      (specLowerMembers enum_name rest
          (Expr.binaryAdd (.numberLit 1 "1")
            (specSelfReference enum_name member_name))).map
        (specMemberStatements enum_name member_name value ++ ·)

/-- The merge key that makes `transform_statement` consider a statement at
all: an export-named statement with an inner declaration, no source and a
value export kind whose declaration resolves to a merge key. -/
def triggerName : Stmt → Option String
  | .moduleDecl (.exportNamed (some declaration) _ none .value) =>
    declName declaration
  | _ => none

/-! ### Concrete sample inputs for the witnesses and the counterexample -/

/-- A symbol table with a single import-binding-only name `X` that has no
resolved references. -/
def tableX : SymbolTable :=
  ⟨fun n => if n = "X" then some ⟨true, false, false, []⟩ else none⟩

/-- A symbol table where `f` is an import binding with one value-tagged
resolved reference. -/
def tableF : SymbolTable :=
  ⟨fun n => if n = "f" then some ⟨true, false, false, [⟨false⟩]⟩ else none⟩

/-- `export { X }; export type { X };` with `X` import-binding-only: both
pass-1 classifications fire for the same name. -/
def bodyBothKinds : List Stmt :=
  [.moduleDecl (.exportNamed none [⟨.value, "X", "X"⟩] none .value),
   .moduleDecl (.exportNamed none [⟨.value, "X", "X"⟩] none .type)]

/-- `export { X };` with `X` import-binding-only. -/
def bodySingleExport : List Stmt :=
  [.moduleDecl (.exportNamed none [⟨.value, "X", "X"⟩] none .value)]

/-- `import type { T } from "m";` -/
def bodyTypeImport : List Stmt :=
  [.moduleDecl (.importDecl .type (some [.namedSpec .value "T"]) "m")]

/-- The inner `enum Foo {}` declaration used by the dedup witness. -/
def fooEnum : Declaration := .tsEnum "Foo" false []

/-- `export enum Foo {}` as a statement. -/
def fooExportStmt : Stmt :=
  .moduleDecl (.exportNamed (some fooEnum) [] none .value)

/-! ## Lemmas -/

/-- One member loop iteration agrees with the spec's per-member description. -/
theorem enumMemberStep_eq_spec (name : String) (d : Expr)
    (m : TSEnumMemberName × Option Expr) (nm : String)
    (h : enumMemberName m.1 = some nm) :
    enumMemberStep name d m =
      some (specMemberStatements name nm (m.2.getD d),
        .binaryAdd (.numberLit 1 "1") (specSelfReference name nm)) := by
  unfold enumMemberStep specMemberStatements specSelfReference
  rw [h]
  by_cases hv : is_valid_identifier nm true = true <;>
    by_cases hs : (m.2.getD d).is_string_literal = true <;>
      simp [hv, hs]

/-- The member loop with the trailing `return` agrees with the spec's fold. -/
theorem enumMembersLoop_spec (name : String) :
    ∀ (members : List (TSEnumMemberName × Option Expr)) (d : Expr),
      (enumMembersLoop name members d).map
          (· ++ [Stmt.returnStmt (some (.identRef name))]) =
        specLowerMembers name members d := by
  intro members
  induction members with
  | nil => intro d; simp [enumMembersLoop, specLowerMembers]
  | cons m rest ih =>
    intro d
    cases h : enumMemberName m.1 with
    | none =>
      simp [enumMembersLoop, specLowerMembers, enumMemberStep, h]
    | some nm =>
      rw [enumMembersLoop, enumMemberStep_eq_spec name d m nm h]
      rw [specLowerMembers, h]
      have ih' := ih (Expr.binaryAdd (.numberLit 1 "1") (specSelfReference name nm))
      cases hr : enumMembersLoop name rest
          (Expr.binaryAdd (.numberLit 1 "1") (specSelfReference name nm)) with
      | none => rw [hr] at ih'; simp [← ih', hr]
      | some l => rw [hr] at ih'; simp [← ih', hr]

/-- `transform_ts_enum_members` always ends its statement list with
`return Name;`. -/
theorem transform_ts_enum_members_last (name : String)
    (members : List (TSEnumMemberName × Option Expr)) (st : List Stmt)
    (h : transform_ts_enum_members members name = some st) :
    ∃ st', st = st' ++ [Stmt.returnStmt (some (.identRef name))] := by
  unfold transform_ts_enum_members at h
  cases hr : enumMembersLoop name members (Expr.numberLit 0 "0") with
  | none => rw [hr] at h; exact absurd h (by simp)
  | some l =>
    rw [hr] at h
    simp only [Option.map_some', Option.some.injEq] at h
    exact ⟨l, h.symm⟩

/-- Adjoining a singleton on the right is an insertion. -/
theorem finset_union_singleton {α : Type} [DecidableEq α] (s : Finset α) (a : α) :
    s ∪ {a} = insert a s := by
  ext x
  simp [or_comm]

/-- The specifier fold of pass 1 adds exactly the spec-classified names of the
specifier list to the two sets. -/
theorem classifySpecifier_fold (tbl : SymbolTable) (k : ImportOrExportKind) :
    ∀ (specs : List ExportSpecifierS) (a : ExportNameSets),
      (specs.foldl (classifySpecifier tbl k) a).export_names =
        a.export_names ∪
          (((specs.filterMap fun sp =>
              if is_import_binding_only tbl sp.exported then
                some (sp.exported, k.is_value && sp.export_kind.is_value)
              else none).filter (·.2)).map (·.1)).toFinset ∧
      (specs.foldl (classifySpecifier tbl k) a).export_type_names =
        a.export_type_names ∪
          (((specs.filterMap fun sp =>
              if is_import_binding_only tbl sp.exported then
                some (sp.exported, k.is_value && sp.export_kind.is_value)
              else none).filter (fun p => !p.2)).map (·.1)).toFinset := by
  intro specs
  induction specs with
  | nil => intro a; simp
  | cons sp rest ih =>
    intro a
    rw [List.foldl_cons]
    by_cases hib : is_import_binding_only tbl sp.exported = true
    · by_cases hv : (k.is_value && sp.export_kind.is_value) = true
      · have hstep : classifySpecifier tbl k a sp =
            { a with export_names := insert sp.exported a.export_names } := by
          simp [classifySpecifier, hib, hv]
        rw [hstep]
        obtain ⟨ih1, ih2⟩ :=
          ih { a with export_names := insert sp.exported a.export_names }
        constructor
        · rw [ih1]
          simp [hib, hv, Finset.insert_union, Finset.union_insert]
        · rw [ih2]
          simp [hib, hv]
      · have hstep : classifySpecifier tbl k a sp =
            { a with
              export_type_names := insert sp.exported a.export_type_names } := by
          simp [classifySpecifier, hib, hv]
        rw [hstep]
        obtain ⟨ih1, ih2⟩ :=
          ih { a with
            export_type_names := insert sp.exported a.export_type_names }
        constructor
        · rw [ih1]
          simp [hib, hv]
        · rw [ih2]
          simp [hib, hv, Finset.insert_union, Finset.union_insert]
    · have hstep : classifySpecifier tbl k a sp = a := by
        simp [classifySpecifier, hib]
      rw [hstep]
      obtain ⟨ih1, ih2⟩ := ih a
      constructor
      · rw [ih1]; simp [hib]
      · rw [ih2]; simp [hib]

/-- One pass-1 statement step adds exactly the spec-classified names of that
statement to the two sets. -/
theorem classifyExportStep_sets (tbl : SymbolTable) (acc : ExportNameSets)
    (s : Stmt) :
    (classifyExportStep tbl acc s).export_names =
      acc.export_names ∪
        (((specClassifyStmt tbl s).filter (·.2)).map (·.1)).toFinset ∧
    (classifyExportStep tbl acc s).export_type_names =
      acc.export_type_names ∪
        (((specClassifyStmt tbl s).filter (fun p => !p.2)).map (·.1)).toFinset := by
  cases s with
  | moduleDecl m =>
    cases m with
    | importDecl kind specs src => simp [classifyExportStep, specClassifyStmt, specClassify]
    | exportNamed d specs src kind =>
      have h := classifySpecifier_fold tbl kind specs acc
      simp only [classifyExportStep, specClassifyStmt, specClassify]
      exact ⟨h.1, h.2⟩
    | exportDefault exported =>
      by_cases hib : is_import_binding_only tbl exported = true <;>
        simp [classifyExportStep, specClassifyStmt, specClassify, hib,
          finset_union_singleton]
    | exportAll exported kind src =>
      cases exported with
      | none => simp [classifyExportStep, specClassifyStmt, specClassify]
      | some name =>
        by_cases hib : is_import_binding_only tbl name = true
        · cases kind <;>
            simp [classifyExportStep, specClassifyStmt, specClassify, hib,
              ImportOrExportKind.is_value, finset_union_singleton]
        · simp [classifyExportStep, specClassifyStmt, specClassify, hib]
    | otherModule => simp [classifyExportStep, specClassifyStmt, specClassify]
  | declStmt d => simp [classifyExportStep, specClassifyStmt]
  | exprStmt e => simp [classifyExportStep, specClassifyStmt]
  | returnStmt a => simp [classifyExportStep, specClassifyStmt]
  | other => simp [classifyExportStep, specClassifyStmt]

/-- The whole pass-1 fold adds exactly the spec-classified names of the body. -/
theorem collectExportNames_fold (tbl : SymbolTable) :
    ∀ (body : List Stmt) (acc : ExportNameSets),
      (body.foldl (classifyExportStep tbl) acc).export_names =
        acc.export_names ∪
          (((classifications tbl body).filter (·.2)).map (·.1)).toFinset ∧
      (body.foldl (classifyExportStep tbl) acc).export_type_names =
        acc.export_type_names ∪
          (((classifications tbl body).filter (fun p => !p.2)).map (·.1)).toFinset := by
  intro body
  induction body with
  | nil => intro acc; simp [classifications]
  | cons s rest ih =>
    intro acc
    have hstep := classifyExportStep_sets tbl acc s
    have hrest := ih (classifyExportStep tbl acc s)
    constructor
    · rw [List.foldl_cons, hrest.1, hstep.1]
      simp [classifications, Finset.union_assoc]
    · rw [List.foldl_cons, hrest.2, hstep.2]
      simp [classifications, Finset.union_assoc]

/-- One retain step only ever grows `import_type_names`. -/
theorem importSpecifierRetain_itn_subset (v : Bool) (tbl : SymbolTable)
    (sets : ExportNameSets) (is_type : Bool) (itn : Finset String)
    (s : ImportSpecifier) :
    itn ⊆ (importSpecifierRetain v tbl sets is_type itn s).2 := by
  cases s <;> simp only [importSpecifierRetain] <;> split_ifs <;>
    first
      | exact Finset.Subset.refl _
      | exact Finset.subset_insert _ _

/-- The whole retain fold only ever grows `import_type_names`. -/
theorem retainImportSpecifiers_itn_subset (v : Bool) (tbl : SymbolTable)
    (sets : ExportNameSets) (is_type : Bool) :
    ∀ (l : List ImportSpecifier) (itn : Finset String),
      itn ⊆ (retainImportSpecifiers v tbl sets is_type l itn).2 := by
  intro l
  induction l with
  | nil => intro itn; exact Finset.Subset.refl _
  | cons s rest ih =>
    intro itn
    exact (importSpecifierRetain_itn_subset v tbl sets is_type itn s).trans
      (ih (importSpecifierRetain v tbl sets is_type itn s).2)

/-- In a type-only import, a specifier the retain closure drops has its local
name recorded into `import_type_names` by that very step. -/
theorem importSpecifierRetain_type_records (v : Bool) (tbl : SymbolTable)
    (sets : ExportNameSets) (itn : Finset String) (s : ImportSpecifier)
    (h : (importSpecifierRetain v tbl sets true itn s).1 = false) :
    s.localName ∈ (importSpecifierRetain v tbl sets true itn s).2 := by
  cases s with
  | namedSpec k n =>
    simp [importSpecifierRetain, ImportSpecifier.localName]
  | defaultSpec n =>
    by_cases hv : v = true
    · rw [hv] at h
      simp [importSpecifierRetain] at h
    · simp only [importSpecifierRetain, hv, if_false, if_true,
        ImportSpecifier.localName]
      simp [Bool.not_eq_true] at hv
      simp [hv]
  | namespaceSpec n =>
    by_cases hv : v = true
    · rw [hv] at h
      simp [importSpecifierRetain] at h
    · simp only [importSpecifierRetain, hv, if_false, if_true,
        ImportSpecifier.localName]
      simp [Bool.not_eq_true] at hv
      simp [hv]

/-- In a type-only import, every specifier of the original list that is not in
the retained list has its local name recorded into `import_type_names`. -/
theorem retainImportSpecifiers_type_records (v : Bool) (tbl : SymbolTable)
    (sets : ExportNameSets) :
    ∀ (l : List ImportSpecifier) (itn : Finset String) (s : ImportSpecifier),
      s ∈ l → s ∉ (retainImportSpecifiers v tbl sets true l itn).1 →
      s.localName ∈ (retainImportSpecifiers v tbl sets true l itn).2 := by
  intro l
  induction l with
  | nil => intro itn s hs; exact absurd hs (List.not_mem_nil s)
  | cons s0 rest ih =>
    intro itn s hs hns
    have hpair : retainImportSpecifiers v tbl sets true (s0 :: rest) itn =
        (if (importSpecifierRetain v tbl sets true itn s0).1 then
          s0 :: (retainImportSpecifiers v tbl sets true rest
            (importSpecifierRetain v tbl sets true itn s0).2).1
         else
          (retainImportSpecifiers v tbl sets true rest
            (importSpecifierRetain v tbl sets true itn s0).2).1,
         (retainImportSpecifiers v tbl sets true rest
           (importSpecifierRetain v tbl sets true itn s0).2).2) := rfl
    rcases List.mem_cons.mp hs with rfl | hmem
    · by_cases hk : (importSpecifierRetain v tbl sets true itn s).1 = true
      · exfalso
        apply hns
        rw [hpair, hk]
        simp
      · have hk' : (importSpecifierRetain v tbl sets true itn s).1 = false :=
          Bool.not_eq_true _ ▸ eq_false_of_ne_true hk
        have hrec := importSpecifierRetain_type_records v tbl sets itn s hk'
        rw [hpair]
        exact retainImportSpecifiers_itn_subset v tbl sets true rest _ hrec
    · have hns' : s ∉ (retainImportSpecifiers v tbl sets true rest
          (importSpecifierRetain v tbl sets true itn s0).2).1 := by
        intro hc
        apply hns
        rw [hpair]
        by_cases hk : (importSpecifierRetain v tbl sets true itn s0).1 = true <;>
          simp [hk, hc]
      have := ih (importSpecifierRetain v tbl sets true itn s0).2 s hmem hns'
      rw [hpair]
      exact this

/-- Statement-level behaviour of `transform_statement` when the statement does
not match the merged-export pattern at all. -/
theorem transform_statement_no_trigger (ens : Finset String) (s : Stmt)
    (h : triggerName s = none) : transform_statement ens s = (ens, s) := by
  cases s with
  | moduleDecl m =>
    cases m with
    | exportNamed d sps src k =>
      cases d with
      | none => rfl
      | some dd =>
        cases src with
        | none =>
          cases k with
          | value =>
            simp only [triggerName] at h
            simp [transform_statement, h]
          | type => rfl
        | some _ => rfl
    | importDecl k sp src => rfl
    | exportDefault e => rfl
    | exportAll e k src => rfl
    | otherModule => rfl
  | declStmt d => rfl
  | exprStmt e => rfl
  | returnStmt a => rfl
  | other => rfl

/-- Statement-level behaviour of `transform_statement` on a triggering
statement: the name is recorded, the first occurrence is kept, later ones are
replaced by the bare inner declaration. -/
theorem transform_statement_trigger (ens : Finset String) (d : Declaration)
    (sps : List ExportSpecifierS) (n : String) (h : declName d = some n) :
    transform_statement ens
        (.moduleDecl (.exportNamed (some d) sps none .value)) =
      (insert n ens,
        if n ∈ ens then Stmt.declStmt d
        else .moduleDecl (.exportNamed (some d) sps none .value)) := by
  simp only [transform_statement, h]
  by_cases hm : n ∈ ens
  · simp [hm, Finset.insert_eq_self.mpr hm]
  · simp [hm]

/-- The threaded `export_name_set` after a statement list is the initial set
together with all trigger names of the list. -/
theorem transform_statements_state (l : List Stmt) :
    ∀ (ens : Finset String),
      (transform_statements ens l).1 = ens ∪ (l.filterMap triggerName).toFinset := by
  induction l with
  | nil => intro ens; simp [transform_statements]
  | cons s rest ih =>
    intro ens
    have hstep : (transform_statement ens s).1 =
        (match triggerName s with
         | some n => insert n ens
         | none => ens) := by
      cases ht : triggerName s with
      | none => rw [transform_statement_no_trigger ens s ht]
      | some n =>
        cases s with
        | moduleDecl m =>
          cases m with
          | exportNamed d sps src k =>
            cases d with
            | none => exact absurd ht (by simp [triggerName])
            | some dd =>
              cases src with
              | none =>
                cases k with
                | value =>
                  simp only [triggerName] at ht
                  rw [transform_statement_trigger ens dd sps n ht]
                | type => exact absurd ht (by simp [triggerName])
              | some _ => exact absurd ht (by simp [triggerName])
          | importDecl k sp src => exact absurd ht (by simp [triggerName])
          | exportDefault e => exact absurd ht (by simp [triggerName])
          | exportAll e k src => exact absurd ht (by simp [triggerName])
          | otherModule => exact absurd ht (by simp [triggerName])
        | declStmt d => exact absurd ht (by simp [triggerName])
        | exprStmt e => exact absurd ht (by simp [triggerName])
        | returnStmt a => exact absurd ht (by simp [triggerName])
        | other => exact absurd ht (by simp [triggerName])
    have hcons : (transform_statements ens (s :: rest)).1 =
        (transform_statements (transform_statement ens s).1 rest).1 := rfl
    rw [hcons, ih, hstep]
    cases ht : triggerName s with
    | none => simp [List.filterMap_cons, ht]
    | some n =>
      simp [List.filterMap_cons, ht, Finset.insert_union, Finset.union_insert]

/-- `transform_statements` distributes over list append. -/
theorem transform_statements_append (l1 : List Stmt) :
    ∀ (l2 : List Stmt) (ens : Finset String),
      transform_statements ens (l1 ++ l2) =
        ((transform_statements (transform_statements ens l1).1 l2).1,
         (transform_statements ens l1).2 ++
           (transform_statements (transform_statements ens l1).1 l2).2) := by
  induction l1 with
  | nil => intro l2 ens; simp [transform_statements]
  | cons s rest ih =>
    intro l2 ens
    have h1 : transform_statements ens ((s :: rest) ++ l2) =
        ((transform_statements (transform_statement ens s).1 (rest ++ l2)).1,
         (transform_statement ens s).2 ::
           (transform_statements (transform_statement ens s).1 (rest ++ l2)).2) := rfl
    have h2 : transform_statements ens (s :: rest) =
        ((transform_statements (transform_statement ens s).1 rest).1,
         (transform_statement ens s).2 ::
           (transform_statements (transform_statement ens s).1 rest).2) := rfl
    rw [h1, h2, ih]
    simp

/-! ### Index-removal machinery for the cleanup loop -/

/-- Erasing only positive indexes from a cons list keeps the head and erases
the shifted indexes from the tail. -/
theorem foldr_eraseIdx_cons {α : Type} (x : α) (xs : List α) :
    ∀ (dels : List Nat), (∀ d ∈ dels, 1 ≤ d) →
      dels.foldr (fun i b => b.eraseIdx i) (x :: xs) =
        x :: (dels.map (· - 1)).foldr (fun i b => b.eraseIdx i) xs := by
  intro dels
  induction dels with
  | nil => intro _; rfl
  | cons d ds ih =>
    intro h
    have hd : 1 ≤ d := h d (List.mem_cons_self d ds)
    have hds : ∀ e ∈ ds, 1 ≤ e := fun e he => h e (List.mem_cons_of_mem d he)
    rw [List.foldr_cons, ih hds, List.map_cons, List.foldr_cons]
    obtain ⟨k, rfl⟩ : ∃ k, d = k + 1 := ⟨d - 1, (Nat.succ_pred_eq_of_pos hd).symm⟩
    simp [List.eraseIdx]

/-- Membership in the shifted index list. -/
theorem mem_shiftIdx (dels : List Nat) (i : Nat) :
    i ∈ shiftIdx dels ↔ i + 1 ∈ dels := by
  unfold shiftIdx
  simp only [List.mem_map, List.mem_filter]
  constructor
  · rintro ⟨d, ⟨hd, hd0⟩, rfl⟩
    have : d ≠ 0 := by simpa using hd0
    have : d - 1 + 1 = d := Nat.succ_pred_eq_of_pos (Nat.pos_of_ne_zero this)
    rwa [this]
  · intro h
    exact ⟨i + 1, ⟨h, by simp⟩, by simp⟩

/-- Shifting preserves strict sortedness. -/
theorem shiftIdx_pairwise (dels : List Nat)
    (h : List.Pairwise (· < ·) dels) :
    List.Pairwise (· < ·) (shiftIdx dels) := by
  unfold shiftIdx
  rw [List.pairwise_map]
  refine (h.filter _).imp_of_mem ?_
  intro a b ha hb hab
  have ha0 : a ≠ 0 := by simpa using (List.mem_filter.mp ha).2
  exact Nat.pred_lt_pred ha0 hab

/-- One cons step of the cleanup loop: with a strictly sorted index list, the
head survives exactly when `0` is not listed, and the tail is cleaned with the
shifted indexes. -/
theorem removeIndexes_cons (x : Stmt) (xs : List Stmt) (dels : List Nat)
    (h : List.Pairwise (· < ·) dels) :
    removeIndexes (x :: xs) dels =
      if 0 ∈ dels then removeIndexes xs (shiftIdx dels)
      else x :: removeIndexes xs (shiftIdx dels) := by
  unfold removeIndexes shiftIdx
  by_cases h0 : 0 ∈ dels
  · rw [if_pos h0]
    obtain ⟨ds, rfl⟩ : ∃ ds, dels = 0 :: ds := by
      cases dels with
      | nil => exact absurd h0 (List.not_mem_nil 0)
      | cons d ds =>
        rcases List.mem_cons.mp h0 with h0 | h0
        · exact ⟨ds, by rw [← h0]⟩
        · exact absurd (List.rel_of_pairwise_cons h h0) (by simp)
    have hds : ∀ e ∈ ds, 1 ≤ e := by
      intro e he
      exact List.rel_of_pairwise_cons h he
    have hfilter : ds.filter (fun d => d != 0) = ds := by
      rw [List.filter_eq_self]
      intro e he
      simpa using Nat.one_le_iff_ne_zero.mp (hds e he)
    rw [List.foldr_cons, foldr_eraseIdx_cons x xs ds hds]
    simp [hfilter]
  · rw [if_neg h0]
    have hds : ∀ e ∈ dels, 1 ≤ e := by
      intro e he
      rcases Nat.eq_zero_or_pos e with rfl | hp
      · exact absurd he h0
      · exact hp
    have hfilter : dels.filter (fun d => d != 0) = dels := by
      rw [List.filter_eq_self]
      intro e he
      simpa using Nat.one_le_iff_ne_zero.mp (hds e he)
    rw [foldr_eraseIdx_cons x xs dels hds, hfilter]

/-- A statement whose index is not marked survives the cleanup loop. -/
theorem mem_removeIndexes :
    ∀ (body : List Stmt) (dels : List Nat) (i : Nat),
      List.Pairwise (· < ·) dels → i < body.length → i ∉ dels →
      body.getD i Stmt.other ∈ removeIndexes body dels := by
  intro body
  induction body with
  | nil => intro dels i _ hi; exact absurd hi (by simp)
  | cons x xs ih =>
    intro dels i hp hi hni
    rw [removeIndexes_cons x xs dels hp]
    cases i with
    | zero =>
      rw [if_neg hni]
      exact List.mem_cons_self _ _
    | succ j =>
      have hj : j ∉ shiftIdx dels := fun hc =>
        hni ((mem_shiftIdx dels j).mp hc)
      have hjl : j < xs.length := Nat.lt_of_succ_lt_succ hi
      have hmem := ih (shiftIdx dels) j (shiftIdx_pairwise dels hp) hjl hj
      have hget : (x :: xs).getD (j + 1) Stmt.other = xs.getD j Stmt.other := rfl
      rw [hget]
      by_cases h0 : 0 ∈ dels
      · rw [if_pos h0]; exact hmem
      · rw [if_neg h0]; exact List.mem_cons_of_mem x hmem

/-- Erasing indexes from an empty list yields the empty list. -/
theorem foldr_eraseIdx_nil (dels : List Nat) :
    dels.foldr (fun index (b : List Stmt) => b.eraseIdx index) [] = [] := by
  induction dels with
  | nil => rfl
  | cons d ds ih => rw [List.foldr_cons, ih]; rfl

/-- When every index of the list is marked, the cleanup loop empties it. -/
theorem removeIndexes_all :
    ∀ (body : List Stmt) (dels : List Nat),
      List.Pairwise (· < ·) dels → (∀ i, i < body.length → i ∈ dels) →
      removeIndexes body dels = [] := by
  intro body
  induction body with
  | nil =>
    intro dels _ _
    exact foldr_eraseIdx_nil dels
  | cons x xs ih =>
    intro dels hp hall
    rw [removeIndexes_cons x xs dels hp,
      if_pos (hall 0 (Nat.succ_pos xs.length))]
    refine ih (shiftIdx dels) (shiftIdx_pairwise dels hp) ?_
    intro i hi
    exact (mem_shiftIdx dels i).mpr (hall (i + 1) (Nat.succ_lt_succ hi))

/-! ### Invariants of pass 2 -/

/-- Pass 2 rewrites statements in place: the output list has the input's
length. -/
theorem pass2Aux_length (v : Bool) (tbl : SymbolTable) (sets : ExportNameSets) :
    ∀ (body : List Stmt) (idx : Nat) (itn : Finset String),
      (pass2Aux v tbl sets body idx itn).1.length = body.length := by
  intro body
  induction body with
  | nil => intro idx itn; rfl
  | cons s rest ih =>
    intro idx itn
    cases s with
    | moduleDecl m => simp [pass2Aux, ih]
    | declStmt d => simp [pass2Aux, ih]
    | exprStmt e => simp [pass2Aux, ih]
    | returnStmt a => simp [pass2Aux, ih]
    | other => simp [pass2Aux, ih]

/-- `import_len` counts exactly the module declarations of the body. -/
theorem pass2Aux_import_len (v : Bool) (tbl : SymbolTable)
    (sets : ExportNameSets) :
    ∀ (body : List Stmt) (idx : Nat) (itn : Finset String),
      (pass2Aux v tbl sets body idx itn).2.2 = body.countP isModuleDecl := by
  intro body
  induction body with
  | nil => intro idx itn; rfl
  | cons s rest ih =>
    intro idx itn
    cases s with
    | moduleDecl m => simp [pass2Aux, ih, List.countP_cons, isModuleDecl]
    | declStmt d => simp [pass2Aux, ih, List.countP_cons, isModuleDecl]
    | exprStmt e => simp [pass2Aux, ih, List.countP_cons, isModuleDecl]
    | returnStmt a => simp [pass2Aux, ih, List.countP_cons, isModuleDecl]
    | other => simp [pass2Aux, ih, List.countP_cons, isModuleDecl]

/-- Every recorded deletion index addresses a module declaration of the body
whose pass-2 deletion flag is true for some `import_type_names` set. -/
theorem pass2Aux_dels_spec (v : Bool) (tbl : SymbolTable)
    (sets : ExportNameSets) :
    ∀ (body : List Stmt) (idx : Nat) (itn : Finset String) (d : Nat),
      d ∈ (pass2Aux v tbl sets body idx itn).2.1 →
      idx ≤ d ∧ d - idx < body.length ∧
      ∃ (itn₀ : Finset String) (m : ModuleDecl),
        body.getD (d - idx) Stmt.other = Stmt.moduleDecl m ∧
        (pass2Module v tbl sets itn₀ m).2.2 = true := by
  intro body
  induction body with
  | nil => intro idx itn d hd; exact absurd hd (by simp [pass2Aux])
  | cons s rest ih =>
    intro idx itn d hd
    cases s with
    | moduleDecl m =>
      simp only [pass2Aux] at hd
      by_cases hflag :
          (pass2Module v tbl sets itn m).2.2 = true
      · rw [if_pos hflag] at hd
        rcases List.mem_cons.mp hd with rfl | hd'
        · refine ⟨Nat.le_refl d, by simp, itn, m, by simp, hflag⟩
        · have h := ih (idx + 1) (pass2Module v tbl sets itn m).2.1 d hd'
          refine ⟨Nat.le_of_succ_le h.1, ?_, ?_⟩
          · have : d - idx = (d - (idx + 1)) + 1 := by omega
            rw [this]
            exact Nat.succ_lt_succ h.2.1
          · have : d - idx = (d - (idx + 1)) + 1 := by omega
            rw [this]
            exact h.2.2
      · rw [if_neg hflag] at hd
        have h := ih (idx + 1) (pass2Module v tbl sets itn m).2.1 d hd
        refine ⟨Nat.le_of_succ_le h.1, ?_, ?_⟩
        · have : d - idx = (d - (idx + 1)) + 1 := by omega
          rw [this]
          exact Nat.succ_lt_succ h.2.1
        · have : d - idx = (d - (idx + 1)) + 1 := by omega
          rw [this]
          exact h.2.2
    | declStmt dd =>
      simp only [pass2Aux] at hd
      have h := ih (idx + 1) itn d hd
      refine ⟨Nat.le_of_succ_le h.1, ?_, ?_⟩
      · have : d - idx = (d - (idx + 1)) + 1 := by omega
        rw [this]
        exact Nat.succ_lt_succ h.2.1
      · have : d - idx = (d - (idx + 1)) + 1 := by omega
        rw [this]
        exact h.2.2
    | exprStmt e =>
      simp only [pass2Aux] at hd
      have h := ih (idx + 1) itn d hd
      refine ⟨Nat.le_of_succ_le h.1, ?_, ?_⟩
      · have : d - idx = (d - (idx + 1)) + 1 := by omega
        rw [this]
        exact Nat.succ_lt_succ h.2.1
      · have : d - idx = (d - (idx + 1)) + 1 := by omega
        rw [this]
        exact h.2.2
    | returnStmt a =>
      simp only [pass2Aux] at hd
      have h := ih (idx + 1) itn d hd
      refine ⟨Nat.le_of_succ_le h.1, ?_, ?_⟩
      · have : d - idx = (d - (idx + 1)) + 1 := by omega
        rw [this]
        exact Nat.succ_lt_succ h.2.1
      · have : d - idx = (d - (idx + 1)) + 1 := by omega
        rw [this]
        exact h.2.2
    | other =>
      simp only [pass2Aux] at hd
      have h := ih (idx + 1) itn d hd
      refine ⟨Nat.le_of_succ_le h.1, ?_, ?_⟩
      · have : d - idx = (d - (idx + 1)) + 1 := by omega
        rw [this]
        exact Nat.succ_lt_succ h.2.1
      · have : d - idx = (d - (idx + 1)) + 1 := by omega
        rw [this]
        exact h.2.2

/-- The recorded deletion indexes are strictly increasing. -/
theorem pass2Aux_dels_sorted (v : Bool) (tbl : SymbolTable)
    (sets : ExportNameSets) :
    ∀ (body : List Stmt) (idx : Nat) (itn : Finset String),
      List.Pairwise (· < ·) (pass2Aux v tbl sets body idx itn).2.1 := by
  intro body
  induction body with
  | nil => intro idx itn; simp [pass2Aux]
  | cons s rest ih =>
    intro idx itn
    cases s with
    | moduleDecl m =>
      simp only [pass2Aux]
      by_cases hflag : (pass2Module v tbl sets itn m).2.2 = true
      · rw [if_pos hflag]
        refine List.Pairwise.cons ?_ (ih (idx + 1) _)
        intro e he
        have := (pass2Aux_dels_spec v tbl sets rest (idx + 1) _ e he).1
        omega
      · rw [if_neg hflag]
        exact ih (idx + 1) _
    | declStmt dd => simp only [pass2Aux]; exact ih (idx + 1) itn
    | exprStmt e => simp only [pass2Aux]; exact ih (idx + 1) itn
    | returnStmt a => simp only [pass2Aux]; exact ih (idx + 1) itn
    | other => simp only [pass2Aux]; exact ih (idx + 1) itn

/-- Pass 2 maps each statement to its image under `pass2StmtImage` for the
`import_type_names` set current at that position. -/
theorem pass2Aux_getD (v : Bool) (tbl : SymbolTable) (sets : ExportNameSets) :
    ∀ (body : List Stmt) (idx : Nat) (itn : Finset String) (j : Nat),
      j < body.length →
      ∃ (itn₀ : Finset String),
        (pass2Aux v tbl sets body idx itn).1.getD j Stmt.other =
          pass2StmtImage v tbl sets itn₀ (body.getD j Stmt.other) := by
  intro body
  induction body with
  | nil => intro idx itn j hj; exact absurd hj (by simp)
  | cons s rest ih =>
    intro idx itn j hj
    cases j with
    | zero =>
      cases s with
      | moduleDecl m => exact ⟨itn, rfl⟩
      | declStmt d => exact ⟨itn, rfl⟩
      | exprStmt e => exact ⟨itn, rfl⟩
      | returnStmt a => exact ⟨itn, rfl⟩
      | other => exact ⟨itn, rfl⟩
    | succ k =>
      have hk : k < rest.length := Nat.lt_of_succ_lt_succ hj
      cases s with
      | moduleDecl m => exact ih (idx + 1) (pass2Module v tbl sets itn m).2.1 k hk
      | declStmt d => exact ih (idx + 1) itn k hk
      | exprStmt e => exact ih (idx + 1) itn k hk
      | returnStmt a => exact ih (idx + 1) itn k hk
      | other => exact ih (idx + 1) itn k hk

/-- The module-declaration indexes of a body, as a list. -/
def moduleDeclIndexes (body : List Stmt) : List Nat :=
  (List.range body.length).filter fun i => isModuleDecl (body.getD i Stmt.other)

/-- The count of module-declaration indexes equals the module-declaration
count. -/
theorem moduleDeclIndexes_length :
    ∀ (body : List Stmt),
      (moduleDeclIndexes body).length = body.countP isModuleDecl := by
  intro body
  induction body with
  | nil => rfl
  | cons x xs ih =>
    unfold moduleDeclIndexes at ih ⊢
    have h1 : (x :: xs).length = xs.length + 1 := rfl
    rw [h1, List.range_succ_eq_map, List.filter_cons]
    have h2 : (List.filter (fun i => isModuleDecl ((x :: xs).getD i Stmt.other))
        (List.map Nat.succ (List.range xs.length))) =
        List.map Nat.succ (List.filter
          (fun i => isModuleDecl (xs.getD i Stmt.other)) (List.range xs.length)) := by
      rw [List.filter_map]
      rfl
    rw [List.countP_cons]
    by_cases hx : isModuleDecl x = true
    · have hcond : isModuleDecl ((x :: xs).getD 0 Stmt.other) = true := hx
      rw [if_pos hcond, h2, List.length_cons, List.length_map, ih, hx]
      simp
    · have hx' : isModuleDecl x = false := eq_false_of_ne_true hx
      have hcond : ¬ isModuleDecl ((x :: xs).getD 0 Stmt.other) = true := by
        rw [show ((x :: xs).getD 0 Stmt.other) = x from rfl, hx']
        simp
      rw [if_neg hcond, h2, List.length_map, ih, hx']
      simp

/-! ## Claims -/

/-- C1: for every enum declaration carrying a `declare` modifier,
`transform_ts_enum` produces no replacement, and (per the spec's contract for
the driver, modelled by `lowered_enum_statements`) the whole declaration is
dropped from the program tree, yielding no runtime statements. -/
theorem c1_ambient_enum_no_replacement (name : String)
    (members : List (TSEnumMemberName × Option Expr)) :
    transform_ts_enum name true members = some none ∧
    lowered_enum_statements name true members = [] :=
  ⟨rfl, rfl⟩

/-- C7: enum member lowering equals the spec's fold: one running default
initializer threaded over the members in source order, starting at the number
literal `0`; each member's value expression is its own initializer when
present and the running default otherwise; after each member the default
becomes `1 + <self-reference>` with the self-reference an identifier for
identifier-valid names and `Name["name"]` otherwise. -/
theorem c7_member_threading (name : String)
    (members : List (TSEnumMemberName × Option Expr)) :
    transform_ts_enum_members members name =
      specLowerMembers name members (Expr.numberLit 0 "0") := by
  rw [← enumMembersLoop_spec, transform_ts_enum_members]

/-- C8: for an identifier-valid member name a `const name = value` declaration
is emitted before the assignment statement and the assignment's value is a
reference to that identifier; the assignment is the forward-only form for
string-literal values and the nested bidirectional form otherwise (also for
names that are not identifier-valid); and a `return Name` statement closes the
member statement list. -/
theorem c8_member_emission (name : String) (d : Expr)
    (m : TSEnumMemberName × Option Expr) (nm : String)
    (h : enumMemberName m.1 = some nm) :
    (is_valid_identifier nm true = true →
      enumMemberStep name d m =
        some ([Stmt.declStmt (.variableDecl .const [(nm, some (m.2.getD d))] false),
               Stmt.exprStmt
                 (if (m.2.getD d).is_string_literal then
                   Expr.assignExpr
                     (.computedMember (.identRef name) (.stringLit nm))
                     (.identRef nm)
                  else
                   Expr.assignExpr
                     (.computedMember (.identRef name)
                       (Expr.assignExpr
                         (.computedMember (.identRef name) (.stringLit nm))
                         (.identRef nm)))
                     (.stringLit nm))],
              .binaryAdd (.numberLit 1 "1") (.identRef nm))) ∧
    (is_valid_identifier nm true = false →
      enumMemberStep name d m =
        some ([Stmt.exprStmt
                 (if (m.2.getD d).is_string_literal then
                   Expr.assignExpr
                     (.computedMember (.identRef name) (.stringLit nm))
                     (m.2.getD d)
                  else
                   Expr.assignExpr
                     (.computedMember (.identRef name)
                       (Expr.assignExpr
                         (.computedMember (.identRef name) (.stringLit nm))
                         (m.2.getD d)))
                     (.stringLit nm))],
              .binaryAdd (.numberLit 1 "1")
                (.computedMember (.identRef name) (.stringLit nm)))) ∧
    (∀ (members : List (TSEnumMemberName × Option Expr)) (st : List Stmt),
      transform_ts_enum_members members name = some st →
      ∃ st', st = st' ++ [Stmt.returnStmt (some (.identRef name))]) := by
  refine ⟨fun hv => ?_, fun hv => ?_, fun members st hst =>
    transform_ts_enum_members_last name members st hst⟩ <;>
  · unfold enumMemberStep
    rw [h]
    by_cases hs : (m.2.getD d).is_string_literal = true <;> simp [hv, hs]

/-- Witness for C8 at `enum E { A }`: the member `A` is identifier-valid, its
value is the running default `0`, and the emitted statements are the `const`
declaration followed by the nested bidirectional assignment. -/
theorem c8_member_emission_witness :
    is_valid_identifier "A" true = true ∧
    enumMemberStep "E" (Expr.numberLit 0 "0") (.ident "A", none) =
      some ([Stmt.declStmt
               (.variableDecl .const [("A", some (Expr.numberLit 0 "0"))] false),
             Stmt.exprStmt
               (Expr.assignExpr
                 (.computedMember (.identRef "E")
                   (Expr.assignExpr
                     (.computedMember (.identRef "E") (.stringLit "A"))
                     (.identRef "A")))
                 (.stringLit "A"))],
            .binaryAdd (.numberLit 1 "1") (.identRef "A")) := by
  refine ⟨by decide, ?_⟩
  have h := (c8_member_emission "E" (Expr.numberLit 0 "0") (.ident "A", none)
    "A" rfl).1 (by decide)
  simpa using h

/-- C4: pass 1 computes exactly the spec-worded classification — it classifies
only import-binding-only names; an export-named specifier is a value
export name when both the declaration's and the specifier's export kinds are
value and a type export name otherwise; an export-default name is always a
value export name; an export-all alias is classified by the declaration's
export kind alone. -/
theorem c4_pass1_classification (tbl : SymbolTable) (body : List Stmt) :
    (collectExportNames tbl body).export_names = specValueNames tbl body ∧
    (collectExportNames tbl body).export_type_names = specTypeNames tbl body := by
  have h := collectExportNames_fold tbl body ⟨∅, ∅⟩
  unfold collectExportNames specValueNames specTypeNames
  exact ⟨by rw [h.1]; simp, by rw [h.2]; simp⟩

/-- C2 (counterexample): for `export { X }; export type { X };` with `X` an
import-binding-only name, pass 1 puts `X` in both sets, so the
value-export-names set and the type-export-names set are not disjoint for
every input. -/
theorem c2_counterexample :
    ¬ Disjoint (collectExportNames tableX bodyBothKinds).export_names
        (collectExportNames tableX bodyBothKinds).export_type_names := by
  rw [Finset.not_disjoint_iff]
  exact ⟨"X", by decide, by decide⟩

/-- C2 (amended): each pass-1 classification occurrence puts its name into
exactly one of the two sets, and the sets are disjoint for every input in
which no import-binding-only name is classified both as a value export name
and as a type export name by different occurrences. -/
theorem c2_amended_disjoint (tbl : SymbolTable) (body : List Stmt)
    (h : ∀ p ∈ classifications tbl body, ∀ q ∈ classifications tbl body,
      p.1 = q.1 → p.2 = q.2) :
    Disjoint (collectExportNames tbl body).export_names
      (collectExportNames tbl body).export_type_names := by
  have hv := (collectExportNames_fold tbl body ⟨∅, ∅⟩).1
  have ht := (collectExportNames_fold tbl body ⟨∅, ∅⟩).2
  unfold collectExportNames
  rw [Finset.disjoint_left]
  intro a ha hb
  rw [hv] at ha
  rw [ht] at hb
  simp only [Finset.empty_union, List.mem_toFinset, List.mem_map] at ha hb
  obtain ⟨p, hp, hpa⟩ := ha
  obtain ⟨q, hq, hqa⟩ := hb
  rw [List.mem_filter] at hp hq
  have heq := h p hp.1 q hq.1 (by rw [hpa, hqa])
  have h2 : q.2 = false := by simpa using hq.2
  rw [hp.2, h2] at heq
  exact Bool.noConfusion heq

/-- Witness for the amended C2 at `export { X };` with `X` an
import-binding-only name: a single classification occurrence, and the two
sets are disjoint. -/
theorem c2_amended_disjoint_witness :
    Disjoint (collectExportNames tableX bodySingleExport).export_names
      (collectExportNames tableX bodySingleExport).export_type_names :=
  c2_amended_disjoint tableX bodySingleExport (by decide)

/-- C3: in pass 2 with verbatim-module-syntax disabled, a named import
specifier that is not type-kind on either level and whose local name is not in
the type-export-names set is kept if and only if the local name has a
value-tagged resolved reference or is in the value-export-names set; the
specifier is otherwise dropped, and `import_type_names` is left unchanged. -/
theorem c3_named_import_keep_iff (tbl : SymbolTable) (sets : ExportNameSets)
    (itn : Finset String) (localName : String)
    (h : localName ∉ sets.export_type_names) :
    ((importSpecifierRetain false tbl sets false itn
        (.namedSpec .value localName)).1 = true ↔
      (has_value_references tbl localName = true ∨
        localName ∈ sets.export_names)) ∧
    (importSpecifierRetain false tbl sets false itn
        (.namedSpec .value localName)).2 = itn ∧
    (retainImportSpecifiers false tbl sets false [.namedSpec .value localName]
        itn).1 =
      (if has_value_references tbl localName = true ∨
          localName ∈ sets.export_names
       then [.namedSpec .value localName] else []) := by
  have hstep : importSpecifierRetain false tbl sets false itn
      (.namedSpec .value localName) =
      (has_value_references tbl localName ||
        decide (localName ∈ sets.export_names), itn) := by
    simp [importSpecifierRetain, ImportOrExportKind.is_type, h]
  refine ⟨?_, ?_, ?_⟩
  · rw [hstep]
    simp
  · rw [hstep]
  · by_cases hk : has_value_references tbl localName = true ∨
        localName ∈ sets.export_names
    · have hb : (has_value_references tbl localName ||
          decide (localName ∈ sets.export_names)) = true := by
        rcases hk with hk | hk <;> simp [hk]
      simp [retainImportSpecifiers, hstep, hb, hk]
    · have hb : (has_value_references tbl localName ||
          decide (localName ∈ sets.export_names)) = false := by
        push_neg at hk
        simp [hk.1, hk.2]
      simp [retainImportSpecifiers, hstep, hb, hk]

/-- Witness for C3: `import { f } from "m"` with one value-tagged reference to
`f` keeps the specifier. -/
theorem c3_named_import_keep_iff_witness :
    ("f" ∉ (⟨∅, ∅⟩ : ExportNameSets).export_type_names) ∧
    (importSpecifierRetain false tableF ⟨∅, ∅⟩ false ∅
        (.namedSpec .value "f")).1 = true :=
  ⟨by decide,
    ((c3_named_import_keep_iff tableF ⟨∅, ∅⟩ ∅ "f" (by decide)).1).mpr
      (Or.inl (by decide))⟩

/-- C5: an import declaration with a specifier list is marked for deletion
exactly when its import kind is type-only or the list was non-empty before
filtering and became empty after filtering; the marking ignores references
entirely; and in a type-only import every specifier removed by the filter has
its local name recorded into `import_type_names`. -/
theorem c5_import_deletion (v : Bool) (tbl : SymbolTable)
    (sets : ExportNameSets) (itn : Finset String) (kind : ImportOrExportKind)
    (specs : List ImportSpecifier) (src : String) :
    pass2Module v tbl sets itn (.importDecl kind (some specs) src) =
      (.importDecl kind
        (some (retainImportSpecifiers v tbl sets kind.is_type specs itn).1) src,
       (retainImportSpecifiers v tbl sets kind.is_type specs itn).2,
       (kind.is_type ||
         (!specs.isEmpty &&
           (retainImportSpecifiers v tbl sets kind.is_type specs itn).1.isEmpty))) ∧
    (kind.is_type = true →
      ∀ s ∈ specs,
        s ∉ (retainImportSpecifiers v tbl sets kind.is_type specs itn).1 →
        s.localName ∈ (retainImportSpecifiers v tbl sets kind.is_type specs itn).2) := by
  constructor
  · rfl
  · intro hk s hs hns
    rw [hk] at hns ⊢
    exact retainImportSpecifiers_type_records v tbl sets specs itn s hs hns

/-- Witness for C5 at `import type { T } from "m"`: the declaration is marked
for deletion, the specifier is dropped, and `T` is recorded into
`import_type_names`. -/
theorem c5_import_deletion_witness :
    (pass2Module false tableX ⟨∅, ∅⟩ ∅
        (.importDecl .type (some [.namedSpec .value "T"]) "m")).2.2 = true ∧
    "T" ∈ (retainImportSpecifiers false tableX ⟨∅, ∅⟩
        ImportOrExportKind.type.is_type [.namedSpec .value "T"] ∅).2 := by
  constructor
  · rw [(c5_import_deletion false tableX ⟨∅, ∅⟩ ∅ .type
      [.namedSpec .value "T"] "m").1]
    decide
  · exact (c5_import_deletion false tableX ⟨∅, ∅⟩ ∅ .type
      [.namedSpec .value "T"] "m").2 rfl (.namedSpec .value "T")
      (by decide) (by decide)

/-- C9: merged-export deduplication triggers only for a value-kind, sourceless
export-named statement whose inner declaration is an enum or an
identifier-named namespace/module declaration; the first statement exporting a
given name is left exported and the name recorded, and every later statement
exporting the same name is replaced by its bare inner declaration. -/
theorem c9_merged_export_dedup (l1 l2 : List Stmt) (d : Declaration)
    (sps : List ExportSpecifierS) (n : String) (h : declName d = some n) :
    (transform_statements ∅
        (l1 ++ .moduleDecl (.exportNamed (some d) sps none .value) :: l2)).2 =
      (transform_statements ∅ l1).2 ++
        (if n ∈ (l1.filterMap triggerName).toFinset then Stmt.declStmt d
         else .moduleDecl (.exportNamed (some d) sps none .value)) ::
        (transform_statements (insert n (transform_statements ∅ l1).1) l2).2 ∧
    (transform_statements ∅ l1).1 = (l1.filterMap triggerName).toFinset ∧
    (∀ (ens : Finset String) (s : Stmt), triggerName s = none →
      transform_statement ens s = (ens, s)) := by
  have hstate : (transform_statements ∅ l1).1 =
      (l1.filterMap triggerName).toFinset := by
    rw [transform_statements_state]
    simp
  refine ⟨?_, hstate, fun ens s hs => transform_statement_no_trigger ens s hs⟩
  rw [transform_statements_append, ← hstate]
  have hcons : transform_statements (transform_statements ∅ l1).1
      (.moduleDecl (.exportNamed (some d) sps none .value) :: l2) =
      ((transform_statements
          (transform_statement (transform_statements ∅ l1).1
            (.moduleDecl (.exportNamed (some d) sps none .value))).1 l2).1,
       (transform_statement (transform_statements ∅ l1).1
          (.moduleDecl (.exportNamed (some d) sps none .value))).2 ::
         (transform_statements
           (transform_statement (transform_statements ∅ l1).1
             (.moduleDecl (.exportNamed (some d) sps none .value))).1 l2).2) := rfl
  rw [hcons, transform_statement_trigger _ d sps n h]

/-- Witness for C9 at `export enum Foo {}` twice: the second occurrence is
replaced by the unexported enum declaration while the first stays exported. -/
theorem c9_merged_export_dedup_witness :
    (transform_statements ∅ ([fooExportStmt] ++ fooExportStmt :: [])).2 =
      (transform_statements ∅ [fooExportStmt]).2 ++
        (if "Foo" ∈ ([fooExportStmt].filterMap triggerName).toFinset then
          Stmt.declStmt fooEnum
         else fooExportStmt) ::
        (transform_statements
          (insert "Foo" (transform_statements ∅ [fooExportStmt]).1) []).2 :=
  (c9_merged_export_dedup [fooExportStmt] [] fooEnum [] "Foo" rfl).1

/-- C6: if the program contained at least one module declaration and every
module declaration was marked deleted, cleanup appends exactly one synthesized
statement — the value-kind `export {}` with no specifiers, no source and no
inner declaration; in particular a file consisting solely of module
declarations that were all deleted ends as exactly that one statement. -/
theorem c6_esm_marker (v : Bool) (tbl : SymbolTable) (body : List Stmt)
    (h1 : ∃ s ∈ body, isModuleDecl s = true)
    (h2 : ∀ i, i < body.length →
      isModuleDecl (body.getD i Stmt.other) = true →
      i ∈ (elisionPass2 v tbl body).2.1) :
    transform_program v tbl body =
      removeIndexes (elisionPass2 v tbl body).1 (elisionPass2 v tbl body).2.1 ++
        [emptyExportStmt] ∧
    ((∀ s ∈ body, isModuleDecl s = true) →
      transform_program v tbl body = [emptyExportStmt]) := by
  have hsorted : List.Pairwise (· < ·) (elisionPass2 v tbl body).2.1 :=
    pass2Aux_dels_sorted v tbl (collectExportNames tbl body) body 0 ∅
  have hlen_eq : (elisionPass2 v tbl body).2.2 = body.countP isModuleDecl :=
    pass2Aux_import_len v tbl (collectExportNames tbl body) body 0 ∅
  have hpos : 0 < (elisionPass2 v tbl body).2.2 := by
    rw [hlen_eq]
    exact List.countP_pos_iff.mpr h1
  have hsubM : ∀ d ∈ (elisionPass2 v tbl body).2.1, d ∈ moduleDeclIndexes body := by
    intro d hd
    have h := pass2Aux_dels_spec v tbl (collectExportNames tbl body) body 0 ∅ d hd
    obtain ⟨itn₀, m, hm, _⟩ := h.2.2
    rw [Nat.sub_zero] at hm
    have hdl : d < body.length := by
      have := h.2.1
      omega
    unfold moduleDeclIndexes
    rw [List.mem_filter, List.mem_range]
    exact ⟨hdl, by rw [hm]; rfl⟩
  have hsubD : ∀ i ∈ moduleDeclIndexes body, i ∈ (elisionPass2 v tbl body).2.1 := by
    intro i hi
    unfold moduleDeclIndexes at hi
    rw [List.mem_filter, List.mem_range] at hi
    exact h2 i hi.1 hi.2
  have hndD : (elisionPass2 v tbl body).2.1.Nodup :=
    hsorted.imp Nat.ne_of_lt
  have hndM : (moduleDeclIndexes body).Nodup :=
    (List.nodup_range _).filter _
  have htfs : (elisionPass2 v tbl body).2.1.toFinset =
      (moduleDeclIndexes body).toFinset := by
    apply Finset.Subset.antisymm
    · intro a ha
      rw [List.mem_toFinset] at ha ⊢
      exact hsubM a ha
    · intro a ha
      rw [List.mem_toFinset] at ha ⊢
      exact hsubD a ha
  have hlen : (elisionPass2 v tbl body).2.1.length = (moduleDeclIndexes body).length := by
    rw [← List.toFinset_card_of_nodup hndD, ← List.toFinset_card_of_nodup hndM,
      htfs]
  have hcnt : (elisionPass2 v tbl body).2.2 =
      (elisionPass2 v tbl body).2.1.length := by
    rw [hlen_eq, hlen, moduleDeclIndexes_length body]
  have hmain : transform_program v tbl body =
      removeIndexes (elisionPass2 v tbl body).1 (elisionPass2 v tbl body).2.1 ++
        [emptyExportStmt] := by
    show (if 0 < (elisionPass2 v tbl body).2.2 ∧
        (elisionPass2 v tbl body).2.2 = (elisionPass2 v tbl body).2.1.length then
      removeIndexes (elisionPass2 v tbl body).1 (elisionPass2 v tbl body).2.1 ++
        [emptyExportStmt]
     else
      removeIndexes (elisionPass2 v tbl body).1 (elisionPass2 v tbl body).2.1) = _
    rw [if_pos ⟨hpos, hcnt⟩]
  refine ⟨hmain, fun hall => ?_⟩
  have hallidx : ∀ i, i < body.length → i ∈ (elisionPass2 v tbl body).2.1 := by
    intro i hi
    refine h2 i hi ?_
    have hmem : body.getD i Stmt.other ∈ body := by
      rw [List.getD_eq_getElem body Stmt.other hi]
      exact List.getElem_mem hi
    exact hall _ hmem
  have hclean : removeIndexes (elisionPass2 v tbl body).1
      (elisionPass2 v tbl body).2.1 = [] := by
    refine removeIndexes_all _ _ hsorted ?_
    intro i hi
    refine hallidx i ?_
    rw [← pass2Aux_length v tbl (collectExportNames tbl body) body 0 ∅]
    exact hi
  rw [hmain, hclean]
  rfl

/-- Witness for C6 at `import type { T } from "m";`: the single module
declaration is deleted and the output is exactly `export {}`. -/
theorem c6_esm_marker_witness :
    transform_program false tableX bodyTypeImport = [emptyExportStmt] :=
  (c6_esm_marker false tableX bodyTypeImport (by decide) (by decide)).2
    (by decide)

/-- C10: a value-kind import declaration with no specifier list, or with an
already-empty specifier list, is never marked for deletion and the statement
survives into the output program, in both verbatim and non-verbatim modes. -/
theorem c10_bare_import_kept (v : Bool) (tbl : SymbolTable) (body : List Stmt)
    (i : Nat) (specifiers : Option (List ImportSpecifier)) (src : String)
    (hspec : specifiers = none ∨ specifiers = some [])
    (hi : i < body.length)
    (hbody : body.getD i Stmt.other =
      .moduleDecl (.importDecl .value specifiers src)) :
    i ∉ (elisionPass2 v tbl body).2.1 ∧
    Stmt.moduleDecl (.importDecl .value specifiers src) ∈
      transform_program v tbl body := by
  have hmod : ∀ (itn₀ : Finset String),
      pass2Module v tbl (collectExportNames tbl body) itn₀
          (.importDecl .value specifiers src) =
        (.importDecl .value specifiers src, itn₀, false) := by
    intro itn₀
    rcases hspec with rfl | rfl
    · rfl
    · rfl
  have hnotdel : i ∉ (elisionPass2 v tbl body).2.1 := by
    intro hc
    have h := pass2Aux_dels_spec v tbl (collectExportNames tbl body) body 0 ∅ i hc
    obtain ⟨itn₀, m, hm, hflag⟩ := h.2.2
    rw [Nat.sub_zero, hbody] at hm
    cases hm
    rw [hmod itn₀] at hflag
    exact Bool.noConfusion hflag
  refine ⟨hnotdel, ?_⟩
  have hsorted : List.Pairwise (· < ·) (elisionPass2 v tbl body).2.1 :=
    pass2Aux_dels_sorted v tbl (collectExportNames tbl body) body 0 ∅
  have hlen : (elisionPass2 v tbl body).1.length = body.length :=
    pass2Aux_length v tbl (collectExportNames tbl body) body 0 ∅
  obtain ⟨itn₀, himg⟩ :=
    pass2Aux_getD v tbl (collectExportNames tbl body) body 0 ∅ i hi
  have himg' : (elisionPass2 v tbl body).1.getD i Stmt.other =
      pass2StmtImage v tbl (collectExportNames tbl body) itn₀
        (body.getD i Stmt.other) := himg
  have himg2 : (elisionPass2 v tbl body).1.getD i Stmt.other =
      Stmt.moduleDecl (.importDecl .value specifiers src) := by
    rw [himg', hbody]
    show Stmt.moduleDecl (pass2Module v tbl (collectExportNames tbl body) itn₀
      (.importDecl .value specifiers src)).1 = _
    rw [hmod itn₀]
  have hmem := mem_removeIndexes (elisionPass2 v tbl body).1
    (elisionPass2 v tbl body).2.1 i hsorted (by rw [hlen]; exact hi) hnotdel
  rw [himg2] at hmem
  by_cases hc : 0 < (elisionPass2 v tbl body).2.2 ∧
      (elisionPass2 v tbl body).2.2 = (elisionPass2 v tbl body).2.1.length
  · have : transform_program v tbl body =
        removeIndexes (elisionPass2 v tbl body).1
          (elisionPass2 v tbl body).2.1 ++ [emptyExportStmt] := by
      show (if 0 < (elisionPass2 v tbl body).2.2 ∧
          (elisionPass2 v tbl body).2.2 = (elisionPass2 v tbl body).2.1.length then
        removeIndexes (elisionPass2 v tbl body).1 (elisionPass2 v tbl body).2.1 ++
          [emptyExportStmt]
       else
        removeIndexes (elisionPass2 v tbl body).1 (elisionPass2 v tbl body).2.1) = _
      rw [if_pos hc]
    rw [this]
    exact List.mem_append_left _ hmem
  · have : transform_program v tbl body =
        removeIndexes (elisionPass2 v tbl body).1
          (elisionPass2 v tbl body).2.1 := by
      show (if 0 < (elisionPass2 v tbl body).2.2 ∧
          (elisionPass2 v tbl body).2.2 = (elisionPass2 v tbl body).2.1.length then
        removeIndexes (elisionPass2 v tbl body).1 (elisionPass2 v tbl body).2.1 ++
          [emptyExportStmt]
       else
        removeIndexes (elisionPass2 v tbl body).1 (elisionPass2 v tbl body).2.1) = _
      rw [if_neg hc]
    rw [this]
    exact hmem

/-- Witness for C10 at `import "m";` (a bare side-effect import): it survives
the whole transform. -/
theorem c10_bare_import_kept_witness :
    Stmt.moduleDecl (.importDecl .value none "m") ∈
      transform_program false tableX
        [.moduleDecl (.importDecl .value none "m"), .other] :=
  (c10_bare_import_kept false tableX
    [.moduleDecl (.importDecl .value none "m"), .other] 0 none "m"
    (Or.inl rfl) (by decide) rfl).2

end Oxc
